import Mathlib

/-!
Shallow embedding of the coroutine HTTP server library
(headers under src/lib/include: http.hpp, aio.hpp, epoll.hpp, task.hpp)
together with theorems settling the specification claims.

Byte strings are modelled as `List Char` (the code is ASCII throughout);
machine integers that cannot overflow on the considered inputs are `Nat`.
-/

namespace Coro

/-- ASCII `std::tolower`, as applied by the code to `unsigned char`
(src/lib/include/http.hpp). -/
def tolower (c : Char) : Char :=
  if 'A' ≤ c ∧ c ≤ 'Z' then Char.ofNat (c.toNat + 32) else c

/-- C `isspace` on ASCII input: space, \t, \n, \v, \f, \r. -/
def isspace (c : Char) : Bool :=
  c = ' ' ∨ c = '\t' ∨ c = '\n' ∨ c = Char.ofNat 11 ∨ c = Char.ofNat 12 ∨ c = '\r'

/-- C `isalnum` on ASCII input. -/
def isalnum (c : Char) : Bool :=
  ('0' ≤ c ∧ c ≤ '9') ∨ ('a' ≤ c ∧ c ≤ 'z') ∨ ('A' ≤ c ∧ c ≤ 'Z')

/-- ASCII `isdigit`. -/
def isdigit (c : Char) : Bool := '0' ≤ c ∧ c ≤ '9'

/-- detail::CaseInsensitiveEqual (http.hpp): walk both strings comparing
`tolower` of each pair of characters; equal iff every pair matches and both
strings end together. -/
def CaseInsensitiveEqual : List Char → List Char → Bool
  | [], [] => true
  | _ :: _, [] => false
  | [], _ :: _ => false
  | a :: as, b :: bs =>
    if tolower a = tolower b then CaseInsensitiveEqual as bs else false

/-- detail::CaseInsensitiveLess (http.hpp): lexicographic comparison of the
`tolower` images; a strict weak order used as the key comparator of the
header map `std::map<std::string, std::string, CaseInsensitiveLess>`. -/
def CaseInsensitiveLess : List Char → List Char → Bool
  | _, [] => false
  | [], _ :: _ => true
  | a :: as, b :: bs =>
    if tolower a ≠ tolower b then decide (tolower a < tolower b)
    else CaseInsensitiveLess as bs

/-- enum class HTTPMethod (http.hpp). -/
inductive HTTPMethod where
  | INVALID
  | GET
  | POST
  | PUT
  | DELETE
  | PATCH
  | HEAD
  | OPTIONS
  | ANY
deriving DecidableEq

/-- The std::uint32_t value of each HTTPMethod enumerator (http.hpp). -/
def HTTPMethod.toUInt32 : HTTPMethod → Nat
  | .INVALID => 0
  | .GET => 0x1
  | .POST => 0x2
  | .PUT => 0x4
  | .DELETE => 0x8
  | .PATCH => 0x10
  | .HEAD => 0x20
  | .OPTIONS => 0x40
  | .ANY => 0x80

/-- http_method (http.hpp): case-insensitive lookup in the static method map
(an unordered_map keyed with CaseInsensitiveHash/CaseInsensitiveEqual); the
map's keys are pairwise non-equivalent, so lookup order is irrelevant and the
lookup is modelled as a chain of CaseInsensitiveEqual tests. -/
def http_method (s : List Char) : HTTPMethod :=
  if CaseInsensitiveEqual s "GET".data then .GET
  else if CaseInsensitiveEqual s "POST".data then .POST
  else if CaseInsensitiveEqual s "PUT".data then .PUT
  else if CaseInsensitiveEqual s "DELETE".data then .DELETE
  else if CaseInsensitiveEqual s "PATCH".data then .PATCH
  else if CaseInsensitiveEqual s "HEAD".data then .HEAD
  else if CaseInsensitiveEqual s "OPTIONS".data then .OPTIONS
  else if CaseInsensitiveEqual s "*".data then .ANY
  else .INVALID

/-- valid_http_method (http.hpp): `(m & ~VALID) == 0 && m != 0 &&
(m & (m-1)) == 0 || (allow_wildcard && method == ANY)`; `~VALID` on a
std::uint32_t with VALID = 0x7f is 0xffffff80. -/
def valid_http_method (method : HTTPMethod) (allow_wildcard : Bool := false) : Bool :=
  let m := method.toUInt32
  (m &&& 0xffffff80 = 0 ∧ m ≠ 0 ∧ m &&& (m - 1) = 0) ∨
    (allow_wildcard ∧ method = .ANY)

/-- HTTPRequest::ParsedURI::TargetType (http.hpp). -/
inductive TargetType where
  | ORIGIN
  | ABSOLUTE
  | AUTHORITY
  | ASTERISK
  | INVALID
deriving DecidableEq

/-- HTTPRequest::ParsedURI (http.hpp): target type, path, and query
parameters.  The source keeps params in an unordered_map; the model keeps the
insertion list, where a later `res.params[key] = value` overwrites. -/
structure ParsedURI where
  type : TargetType
  path : List Char
  params : List (List Char × List Char)
deriving DecidableEq

/-- The `res.params[key] = value` assignment of std::unordered_map: assign in place if the
key exists, otherwise append. -/
def paramsPut (k v : List Char) : List (List Char × List Char) → List (List Char × List Char)
  | [] => [(k, v)]
  | (k', v') :: rest =>
    if k' = k then (k', v) :: rest else (k', v') :: paramsPut k v rest

/-- The query-parsing loop of ParsedURI::from: split the query string on '&',
keep the pairs that contain '=', and insert each into params. -/
def parseParams (query : List Char) : List (List Char × List Char) :=
  (query.splitOn '&').foldl
    (fun acc pair =>
      match pair.findIdx? (· = '=') with
      | some i => paramsPut (pair.take i) (pair.drop (i + 1)) acc
      | none => acc)
    []

/-- The test `s.find(pat) != npos` of std::string_view: pat occurs as a contiguous
substring of s. -/
def containsSub (pat s : List Char) : Bool :=
  (List.range (s.length + 1)).any (fun i => pat.isPrefixOf (s.drop i))

/-- HTTPRequest::ParsedURI::from (http.hpp): classify the request target and,
for Origin form, split off the query at the first '?'; a '?' whose query
yields no valid `k=v` pair makes the result INVALID with a cleared path. -/
def ParsedURI.fromTarget (s : List Char) : ParsedURI :=
  if s = [] then ⟨.INVALID, [], []⟩
  else if s = "*".data then ⟨.ASTERISK, [], []⟩
  else if ¬ containsSub "://".data s ∧ ¬ s.contains '/' then ⟨.AUTHORITY, s, []⟩
  else if containsSub "://".data s then ⟨.ABSOLUTE, s, []⟩
  else
    match s.findIdx? (· = '?') with
    | none => ⟨.ORIGIN, s, []⟩
    | some q =>
      let path := s.take q
      let params := parseParams (s.drop (q + 1))
      if params = [] then ⟨.INVALID, [], []⟩ else ⟨.ORIGIN, path, params⟩

/-- A node of HTTPRouter's trie (http.hpp): children keyed by path segment
(CaseSensitive maps), and a possibly empty handler table keyed by method.
unordered_map is modelled as an association list in insertion order (lookup
is key-equality based, so bucket order is irrelevant); handlers are
identified by Nat ids standing for the std::function objects. -/
inductive Node where
  | mk (children : List (List Char × Node)) (handlers : List (HTTPMethod × Nat))

/-- The children table of a node. -/
def Node.children : Node → List (List Char × Node)
  | .mk c _ => c

/-- The handler table of a node. -/
def Node.handlers : Node → List (HTTPMethod × Nat)
  | .mk _ h => h

/-- unordered_map find: first (and only) entry with this key. -/
def assocGet {K V : Type} [DecidableEq K] (k : K) : List (K × V) → Option V
  | [] => none
  | (k', v') :: rest => if k' = k then some v' else assocGet k rest

/-- unordered_map insert_or_assign / operator[]=: assign in place if the key
exists, otherwise append. -/
def assocPut {K V : Type} [DecidableEq K] (k : K) (v : V) : List (K × V) → List (K × V)
  | [] => [(k, v)]
  | (k', v') :: rest =>
    if k' = k then (k', v) :: rest else (k', v') :: assocPut k v rest

/-- The insertion walk of HTTPRouter::route (http.hpp): follow each path
segment, creating missing children, and at the final node assign
`handlers[method] = handler`. -/
def Node.insertPath : Node → List (List Char) → HTTPMethod → Nat → Node
  | n, [], method, handler => .mk n.children (assocPut method handler n.handlers)
  | n, seg :: rest, method, handler =>
    match assocGet seg n.children with
    | some child =>
      .mk (assocPut seg (Node.insertPath child rest method handler) n.children) n.handlers
    | none =>
      .mk (assocPut seg (Node.insertPath (.mk [] []) rest method handler) n.children) n.handlers

/-- Observer: the handler registered for `method` at the node reached by
`segs` (if any). -/
def Node.handlerAt : Node → List (List Char) → HTTPMethod → Option Nat
  | n, [], method => assocGet method n.handlers
  | n, seg :: rest, method =>
    match assocGet seg n.children with
    | some child => Node.handlerAt child rest method
    | none => none

/-- The errors HTTPRouter::route(HTTPMethod, ...) can throw. -/
inductive RouteError where
  | invalidMethodName
  | pathNoSlash
  | invalidPath
  | pathHasParams
  | emptyHandler
deriving DecidableEq

/-- The non-empty path segments route iterates over:
`std::views::split(uri, "/")`, skipping empty components. -/
def pathSegments (uri : List Char) : List (List Char) :=
  (uri.splitOn '/').filter (· ≠ [])

/-- HTTPRouter::route(HTTPMethod, std::string_view, HTTPHandler)
(http.hpp, lines 564-618).  The handler is `none` for a null std::function.
NOTE (faithful to the source): the opening method check only CONSTRUCTS
`std::runtime_error(...)` and never throws it, so it has no effect and an
invalid method does not abort the registration; the model therefore has no
method test. -/
def HTTPRouter.route (root : Node) (method : HTTPMethod) (uri : List Char)
    (handler : Option Nat) : Except RouteError Node :=
  if ¬ "/".data.isPrefixOf uri then .error .pathNoSlash
  else
    let parsed := ParsedURI.fromTarget uri
    if parsed.type ≠ .ORIGIN ∧ parsed.type ≠ .ASTERISK then .error .invalidPath
    else if parsed.params ≠ [] then .error .pathHasParams
    else
      match handler with
      | none => .error .emptyHandler
      | some h => .ok (root.insertPath (pathSegments uri) method h)

/-- The string_view overload HTTPRouter::route (http.hpp, lines 552-562).
After checking that the method name is known, its body calls
`route(method, uri, std::move(handler))` where `method` still has type
std::string_view; overload resolution picks this same overload again
(HTTPMethod is a scoped enum, so there is no conversion from string_view),
and the function recurses on itself unconditionally.  Modelled with explicit
fuel, one unit per nested call: `none` means the call does not return within
the given depth. -/
def HTTPRouter.routeStr : Nat → List Char → List Char → Option Nat →
    Option (Except RouteError Unit)
  | 0, _, _, _ => none
  | fuel + 1, method, uri, handler =>
    if http_method method = .INVALID then some (.error .invalidMethodName)
    else HTTPRouter.routeStr fuel method uri handler

/-- Promise<T>::result_ for non-void T (task.hpp):
`std::variant<std::monostate, T, std::exception_ptr>`.  Exceptions are
identified by Nat ids. -/
inductive PromiseState (T : Type) where
  | monostate
  | value (v : T)
  | exn (e : Nat)
deriving DecidableEq

/-- Promise<void>::result_ (task.hpp): the variant omits the value arm, and
`return_void()` stores nothing, so a cleanly completed void task is
indistinguishable from one that has not completed. -/
inductive VoidPromiseState where
  | monostate
  | exn (e : Nat)
deriving DecidableEq

/-- How a result() call ends when it does not produce a value. -/
inductive ResultError where
  | notReady
  | rethrown (e : Nat)
deriving DecidableEq

/-- Promise<T>::result() for non-void T (task.hpp, lines 117-133): re-raise a
stored exception; return a stored value; otherwise throw
`runtime_error("The value is not set: ...")` — the NotReady error. -/
def Promise.result {T : Type} : PromiseState T → Except ResultError T
  | .exn e => .error (.rethrown e)
  | .value v => .ok v
  | .monostate => .error .notReady

/-- Promise<void>::result() (task.hpp, lines 117-133 with T = void): re-raise
a stored exception; otherwise the `if constexpr (!is_same_v<void, T>)` block
is skipped entirely and the call returns normally. -/
def Promise.resultVoid : VoidPromiseState → Except ResultError Unit
  | .exn e => .error (.rethrown e)
  | .monostate => .ok ()

/-- One entry of TimedScheduler::timed_coros_: a coroutine_handle<TimedPromise>
with its promise's expire_ deadline and the handle's address (both Nat in the
model; the clock is the count of time units since some origin). -/
structure TimedEntry where
  expire : Nat
  addr : Nat
deriving DecidableEq

/-- operator< on coroutine_handle<TimedPromise> (task.hpp, lines 283-291):
order by deadline, ties broken by address. -/
def handleLt (a b : TimedEntry) : Bool :=
  if a.expire ≠ b.expire then decide (a.expire < b.expire) else decide (a.addr < b.addr)

/-- TimedScheduler::run() (task.hpp, lines 316-349), restricted to the timer
half: the ready queue is empty (the claim concerns timed coroutines), the
monotonic clock is held at `now` for the pass, and resuming a timed coroutine
removes its entry (the sleep coroutine runs to completion and ~TimedPromise
erases itself from the tree, as the code relies on).  The argument list is
timed_coros_ in its iteration order, so the loop pops the head while it is
due; it stops at the first pending entry and returns its remaining delay, or
returns none once the set is exhausted.  Produces (resumed entries in resume
order, returned optional delay). -/
def TimedScheduler.run (now : Nat) : List TimedEntry → List TimedEntry × Option Nat
  | [] => ([], none)
  | e :: rest =>
    if e.expire ≤ now then
      let p := TimedScheduler.run now rest
      (e :: p.1, p.2)
    else ([], some (e.expire - now))

/-- The inner for-loop of AsyncIStreamBase::getline (aio.hpp, lines 236-246):
after eol[0] matched, read further characters while they match eol[1..].
Input is the not-yet-consumed byte stream (refill boundaries do not change
which character getchar yields next, so the buffer is abstracted away).
Returns some (k, rest, full) where k is how many characters of eolRest
matched, rest is the stream after everything the loop consumed — on a
mismatch the mismatching character has been consumed and is NOT part of
rest — and full tells whether the whole eol matched.  none models the
EOFException thrown when refill hits end of stream. -/
def matchEolRest : List Char → List Char → Option (Nat × List Char × Bool)
  | [], input => some (0, input, true)
  | _ :: _, [] => none
  | e :: es, c :: cs =>
    if c = e then
      match matchEolRest es cs with
      | none => none
      | some (k, rest, full) => some (k + 1, rest, full)
    else some (0, cs, false)

/-- AsyncIStreamBase::getline (aio.hpp, lines 225-260), outer loop, with the
eol delimiter split as e0 :: erest and accumulator s.  Reading a character
equal to e0 enters the inner match; on a full match the line s is returned
(eol excluded) together with the unconsumed stream; on a partial match
followed by a mismatch, the matched prefix eol[0..i-1] is appended to s and
scanning continues — note the mismatching character consumed by the inner
loop is in neither s nor the remaining stream.  none models the
EOFException thrown by refill at end of stream.  The fuel only bounds the
recursion: every iteration consumes at least one input character (the inner
match never lengthens the stream), so fuel > input length never runs out. -/
def getlineLoop (e0 : Char) (erest : List Char) :
    Nat → List Char → List Char → Option (List Char × List Char)
  | 0, _, _ => none
  | fuel + 1, s, input =>
    match input with
    | [] => none
    | c :: cs =>
      if c = e0 then
        match matchEolRest erest cs with
        | none => none
        | some (k, rest, full) =>
          if full then some (s, rest)
          else getlineLoop e0 erest fuel (s ++ (e0 :: erest).take (k + 1)) rest
      else getlineLoop e0 erest fuel (s ++ [c]) cs

/-- AsyncIStreamBase::getline (aio.hpp, lines 225-260) on a byte stream:
returns (line, rest of stream), or none when end of stream is reached before
the delimiter completes.  The delimiter must be non-empty (the code indexes
eol[0] unconditionally); an empty delimiter yields none. -/
def AsyncIStreamBase.getline (eol input : List Char) : Option (List Char × List Char) :=
  match eol with
  | [] => none
  | e0 :: erest => getlineLoop e0 erest (input.length + 1) [] input

/-- The specification's getline, written from the claim's words for
comparison with the source-modelled AsyncIStreamBase.getline: exactly the
bytes of the stream strictly before the first occurrence of the full
delimiter d (the delimiter excluded); none when d never occurs. -/
def specGetlineBytes (d s : List Char) : Option (List Char) :=
  ((List.range (s.length + 1)).find? (fun i => d.isPrefixOf (s.drop i))).map s.take

/-- The free coroutine getline(sched, f, delim) (epoll.hpp, lines 244-270):
read characters, appending to s, until s ends with delim, then strip delim;
if the stream is exhausted first, return what was accumulated with
hup = true.  Returns (line, rest of stream, hup). -/
def streamGetline (delim : List Char) (s : List Char) :
    List Char → List Char × List Char × Bool
  | [] => (s, [], true)
  | c :: cs =>
    let s' := s ++ [c]
    if delim.isSuffixOf s' then (s'.take (s'.length - delim.length), cs, false)
    else streamGetline delim s' cs

/-- Trailing-whitespace trimming: `while (!s.empty() && isspace(s.back()))
s.pop_back()`. -/
def trimEnd (s : List Char) : List Char :=
  (s.reverse.dropWhile isspace).reverse

/-- Extraction `std::stringstream ss(line); ss >> tok1 >> tok2 ...`: the maximal
whitespace-separated tokens of line, in order. -/
def tokenize (s : List Char) : List (List Char) :=
  let step := fun (acc : List (List Char) × List Char) c =>
    if isspace c then (if acc.2 = [] then acc else (acc.1 ++ [acc.2], []))
    else (acc.1, acc.2 ++ [c])
  let r := s.foldl step ([], [])
  if r.2 = [] then r.1 else r.1 ++ [r.2]

/-- HTTPHeaders = std::map<std::string, std::string, CaseInsensitiveLess>,
modelled as an association list sorted by CaseInsensitiveLess with pairwise
non-equivalent keys (the std::map representation invariant). -/
abbrev HTTPHeaders := List (List Char × List Char)

/-- headers.insert_or_assign(k, v): place (k, v) at its sorted position; if a
key equivalent under CaseInsensitiveLess exists, assign the value but keep
the stored key spelling (std::map never replaces keys). -/
def HTTPHeaders.insert_or_assign (k v : List Char) : HTTPHeaders → HTTPHeaders
  | [] => [(k, v)]
  | (k', v') :: rest =>
    if CaseInsensitiveLess k k' then (k, v) :: (k', v') :: rest
    else if CaseInsensitiveLess k' k then (k', v') :: HTTPHeaders.insert_or_assign k v rest
    else (k', v) :: rest

/-- headers.find(k): the value of the entry whose key is equivalent to k
under CaseInsensitiveLess (neither compares less than the other). -/
def HTTPHeaders.find (k : List Char) : HTTPHeaders → Option (List Char)
  | [] => none
  | (k', v') :: rest =>
    if ¬ CaseInsensitiveLess k k' ∧ ¬ CaseInsensitiveLess k' k then some v'
    else HTTPHeaders.find k rest

/-- std::stoi on a header value, for the inputs the codec feeds it
(non-negative decimal strings, no overflow): skip leading whitespace, read
decimal digits; none models the std::invalid_argument throw when no digit
is found. -/
def stoiNat (s : List Char) : Option Nat :=
  let t := (s.dropWhile isspace).takeWhile isdigit
  if t = [] then none
  else some (t.foldl (fun acc c => acc * 10 + (c.toNat - '0'.toNat)) 0)

/-- struct HTTPRequest (http.hpp): method, request target, header map, body. -/
structure HTTPRequest where
  method : List Char
  uri : List Char
  headers : HTTPHeaders
  body : List Char

/-- The distinct exception messages HTTPRequest::read_from can throw. -/
inductive ParseError where
  | noHttpSuffix
  | invalidMethod
  | prematureEof
  | noColon
  | badFieldName
  | emptyFieldValue
  | badContentLength
  | outOfFuel
deriving DecidableEq

/-- The header loop of HTTPRequest::read_from (http.hpp, lines 196-235):
read a CRLF line; hup is a premature EOF; an empty line ends the loop ONLY
when at least one header has been stored (`!headers.empty() &&
line.result.empty()`); otherwise the line must contain ':', the field name
must be alphanumerics plus '_' and '-', optional whitespace after the colon
is skipped, trailing whitespace of the value is trimmed, an empty value is
an error, and the field is stored with insert_or_assign.  The fuel only
bounds the recursion; every iteration consumes at least two input
characters, so fuel > input length never runs out (outOfFuel is
unreachable then). -/
def headerLoop : Nat → HTTPHeaders → List Char → Except ParseError (HTTPHeaders × List Char)
  | 0, _, _ => .error .outOfFuel
  | fuel + 1, headers, input =>
    let g := streamGetline "\r\n".data [] input
    let line := g.1
    let rest := g.2.1
    let hup := g.2.2
    if hup then .error .prematureEof
    else if headers ≠ [] ∧ line = [] then .ok (headers, rest)
    else
      match line.findIdx? (· = ':') with
      | none => .error .noColon
      | some i =>
        let field_name := line.take i
        if ¬ field_name.all (fun ch => isalnum ch ∨ ch = '_' ∨ ch = '-') then
          .error .badFieldName
        else
          let field_value := trimEnd ((line.drop (i + 1)).dropWhile isspace)
          if field_value = [] then .error .emptyFieldValue
          else headerLoop fuel (headers.insert_or_assign field_name field_value) rest

/-- HTTPRequest::read_from (http.hpp, lines 173-247) on a byte stream:
request line (trailing whitespace trimmed, must end with "HTTP/1.1", its
first two tokens become method and uri, unknown method rejected), then the
header loop, then — when a content-length header is present — the body.
The body read models the awaited `read(sched, f, buf)` call; that helper is
not part of the sources at hand, so it follows the spec (§4.H): read exactly
content-length bytes, fewer available means premature EOF. -/
def HTTPRequest.read_from (input : List Char) : Except ParseError HTTPRequest :=
  let g := streamGetline "\r\n".data [] input
  let line := trimEnd g.1
  let rest := g.2.1
  let hup := g.2.2
  if hup ∨ ¬ "HTTP/1.1".data.isSuffixOf line then .error .noHttpSuffix
  else
    let toks := tokenize line
    let method := toks.getD 0 []
    let uri := toks.getD 1 []
    if http_method method = .INVALID then .error .invalidMethod
    else
      match headerLoop (input.length + 1) [] rest with
      | .error e => .error e
      | .ok (headers, rest2) =>
        match HTTPHeaders.find "content-length".data headers with
        | none => .ok ⟨method, uri, headers, []⟩
        | some v =>
          match stoiNat v with
          | none => .error .badContentLength
          | some len =>
            if rest2.length < len then .error .prematureEof
            else .ok ⟨method, uri, headers, rest2.take len⟩

/-- HTTPRequest::write_to (http.hpp, lines 249-283): the exact byte string
handed to fputs (headers, then body; fputs itself only forwards the bytes).
Empty method/uri serialize as "<empty>"; header fields named content-length
(case-insensitively) are skipped; when the body is empty the blank line
"\r\n" ends the head, but when the body is NON-empty the code appends only
"content-length: N\r\n" — no blank line — before the body. -/
def HTTPRequest.write_to (r : HTTPRequest) : List Char :=
  (if r.method = [] then "<empty>".data else r.method) ++ " ".data ++
  (if r.uri = [] then "<empty>".data else r.uri) ++ " HTTP/1.1\r\n".data ++
  (r.headers.foldl
    (fun acc kv =>
      if CaseInsensitiveEqual kv.1 "content-length".data then acc
      else acc ++ kv.1 ++ ": ".data ++ kv.2 ++ "\r\n".data)
    []) ++
  (if r.body = [] then "\r\n".data
   else "content-length: ".data ++ (Nat.repr r.body.length).data ++ "\r\n".data) ++
  r.body

namespace WhenAll

/-- How the body of a when_all child ends: co_return (ok) or an unhandled
exception, identified by a Nat id. -/
inductive ChildOutcome where
  | ok
  | exn (e : Nat)
deriving DecidableEq

/-- What a child awaitable does on its first resume: run to its end at once,
or suspend (on a timer or an fd) and finish later when its external event
fires.  The model runs single-threaded, as the library does. -/
inductive ChildBehavior where
  | immediate (o : ChildOutcome)
  | suspends (o : ChildOutcome)
deriving DecidableEq

/-- The eventual outcome of a child's body. -/
def ChildBehavior.outcome : ChildBehavior → ChildOutcome
  | .immediate o => o
  | .suspends o => o

/-- detail::when_all::WhenAllTaskGroup (task.hpp, lines 426-430): the live
count and the stored exception_ptr (none = null); prev_ is the parent,
implicit in the driver. -/
structure WhenAllTaskGroup where
  count : Nat
  exn : Option Nat
deriving DecidableEq

/-- The visible events of one when_all run: child i's frame starts running,
child i's body finishes, the parent coroutine is resumed. -/
inductive Event where
  | childStart (i : Nat)
  | childComplete (i : Nat)
  | parentResume
deriving DecidableEq

/-- The tail of when_all_task (task.hpp, lines 459-479) once the awaited
child body finished with outcome o: on an exception, store it in the group
(overwriting any previous one) and co_return group.prev_, i.e. resume the
parent NOW; on success decrement the count and co_return group.prev_ only
when it reaches zero.  Returns the updated group and whether the parent is
resumed. -/
def whenAllTaskFinish (g : WhenAllTaskGroup) (o : ChildOutcome) : WhenAllTaskGroup × Bool :=
  match o with
  | .exn e => ({ g with exn := some e }, true)
  | .ok => ({ g with count := g.count - 1 }, g.count - 1 = 0)

/-- Driver state of a when_all run.  group and trace mirror the code; pending
lists the children currently suspended (in suspension order); parentResumes
counts resumptions of the parent; delivered records what
WhenAllAwaiter::await_resume sees at the FIRST parent resume —
some (some e) = rethrow of exception e, some none = normal return of the
result tuple. -/
structure RunState where
  group : WhenAllTaskGroup
  trace : List Event
  pending : List Nat
  parentResumes : Nat
  delivered : Option (Option Nat)
deriving DecidableEq

/-- ReturnPreviousAwaiter resumes group.prev_, the parent: record the event,
and at the first resumption record what await_resume delivers (the group's
exception state at that moment). -/
def resumeParent (s : RunState) : RunState :=
  { s with
    trace := s.trace ++ [Event.parentResume]
    parentResumes := s.parentResumes + 1
    delivered := if s.parentResumes = 0 then some s.group.exn else s.delivered }

/-- Child i's body finishes with outcome o: record the completion, run the
when_all_task tail, and resume the parent if it says so. -/
def childFinish (s : RunState) (i : Nat) (o : ChildOutcome) : RunState :=
  let p := whenAllTaskFinish s.group o
  let s' := { s with group := p.1, trace := s.trace ++ [Event.childComplete i] }
  if p.2 then resumeParent s' else s'

/-- Child i is resumed for the first time (one `task.coro_.resume()` of
WhenAllAwaiter::await_suspend's loop, or — for i = 0 — the symmetric
transfer to the returned handle): it either completes at once or suspends. -/
def childFirstResume (bs : List ChildBehavior) (s : RunState) (i : Nat) : RunState :=
  let s1 := { s with trace := s.trace ++ [Event.childStart i] }
  match bs.getD i (ChildBehavior.immediate ChildOutcome.ok) with
  | .immediate o => childFinish s1 i o
  | .suspends _ => { s1 with pending := s1.pending ++ [i] }

/-- WhenAllAwaiter::await_suspend (task.hpp, lines 432-457): stores the
parent in group.prev_, resumes tasks_[1..] in order, then returns
tasks_[0].coro_, which the framework resumes; so the children are first
resumed in index order 1, ..., n-1, 0. -/
def awaitSuspendOrder (n : Nat) : List Nat :=
  (List.range n).drop 1 ++ [0]

/-- State before the co_await: group initialized with count = number of
children (when_all, task.hpp lines 485-505), nothing run yet. -/
def initState (n : Nat) : RunState :=
  ⟨⟨n, none⟩, [], [], 0, none⟩

/-- The synchronous part of co_await WhenAllAwaiter: every child is resumed
once, in await_suspend order. -/
def startPhase (bs : List ChildBehavior) : RunState :=
  (awaitSuspendOrder bs.length).foldl (childFirstResume bs) (initState bs.length)

/-- The external event of child i fires (its timer expires / its fd becomes
ready): if the child is still suspended, its body now completes with its
outcome. -/
def externalFire (bs : List ChildBehavior) (s : RunState) (i : Nat) : RunState :=
  if i ∈ s.pending then
    childFinish { s with pending := s.pending.erase i } i
      ((bs.getD i (ChildBehavior.immediate ChildOutcome.ok)).outcome)
  else s

/-- A full when_all run over children bs: the synchronous start phase, then
the suspended children complete in the order given by ext. -/
def run (bs : List ChildBehavior) (ext : List Nat) : RunState :=
  ext.foldl (externalFire bs) (startPhase bs)

/-- Observer: the child indices in first-resume order. -/
def startsOf (tr : List Event) : List Nat :=
  tr.filterMap (fun ev => match ev with | .childStart i => some i | _ => none)

/-- Observer: the child indices in completion order. -/
def completesOf (tr : List Event) : List Nat :=
  tr.filterMap (fun ev => match ev with | .childComplete i => some i | _ => none)

/-- Observer: the outcome of child i. -/
def outcomeAt (bs : List ChildBehavior) (i : Nat) : ChildOutcome :=
  (bs.getD i (ChildBehavior.immediate ChildOutcome.ok)).outcome

/-- Observer: the exception child i's body throws, if any. -/
def exnAt (bs : List ChildBehavior) (i : Nat) : Option Nat :=
  match outcomeAt bs i with
  | .exn e => some e
  | .ok => none

/-- Observer: the exception of the first child (in completion order) whose
body threw, if any — "the first exception that was thrown". -/
def firstExnOf (bs : List ChildBehavior) (tr : List Event) : Option Nat :=
  (completesOf tr).findSome? (exnAt bs)

/-- Observer: how many completions in the trace are of children whose body
ends normally (each such completion decremented group.count once). -/
def okCount (bs : List ChildBehavior) (tr : List Event) : Nat :=
  ((completesOf tr).filter (fun i => outcomeAt bs i = ChildOutcome.ok)).length

/-- What the first parent resumption has delivered so far: either no
exception has been observed — and then either the parent has never been
resumed (and work remains), or it was resumed exactly once, by the last
clean completion, delivering the normal result — or some child threw, and
the first parent resumption delivered the first exception thrown. -/
def DelivClause (bs : List ChildBehavior) (s : RunState) : Prop :=
  (firstExnOf bs s.trace = none ∧
    ((s.delivered = none ∧ s.parentResumes = 0 ∧
        (s.group.count ≠ 0 ∨ bs.length = 0)) ∨
     (s.delivered = some none ∧ s.group.count = 0 ∧ s.parentResumes = 1)))
  ∨ (∃ e, firstExnOf bs s.trace = some e ∧ s.delivered = some (some e)
      ∧ 1 ≤ s.parentResumes)

/-- The driver invariant of a when_all run, tying a reachable state to the
children's behaviors: the count accounting, the length accounting between
pending, completed and started children, index bounds, the
parent-resumption count, the stored exception, the final trace event when
the count reached zero, and what the first parent resumption delivered. -/
structure Inv (bs : List ChildBehavior) (s : RunState) : Prop where
  countEq : s.group.count + okCount bs s.trace = bs.length
  lenEq : s.pending.length + (completesOf s.trace).length = (startsOf s.trace).length
  startsLe : (startsOf s.trace).length ≤ bs.length
  pendingLt : ∀ i ∈ s.pending, i < bs.length
  completesLt : ∀ i ∈ completesOf s.trace, i < bs.length
  prCount : List.count Event.parentResume s.trace = s.parentResumes
  noExnNone : firstExnOf bs s.trace = none → s.group.exn = none
  lastPr : s.group.count = 0 → s.trace.getLast? = some Event.parentResume
  deliv : DelivClause bs s

end WhenAll

/-! ### Theorems -/

/-- CaseInsensitiveEqual holds exactly when the tolower images coincide. -/
theorem CaseInsensitiveEqual_iff (a b : List Char) :
    CaseInsensitiveEqual a b = true ↔ a.map tolower = b.map tolower := by
  induction a generalizing b with
  | nil => cases b <;> simp [CaseInsensitiveEqual]
  | cons x xs ih =>
    cases b with
    | nil => simp [CaseInsensitiveEqual]
    | cons y ys =>
      by_cases h : tolower x = tolower y
      · simp [CaseInsensitiveEqual, h, ih]
      · simp [CaseInsensitiveEqual, h]

/-- Strings equal up to case compare equal (under CaseInsensitiveEqual) to
every third string. -/
theorem CaseInsensitiveEqual_congr {s s' : List Char}
    (h : CaseInsensitiveEqual s s' = true) (k : List Char) :
    CaseInsensitiveEqual s k = CaseInsensitiveEqual s' k := by
  have hm := (CaseInsensitiveEqual_iff s s').mp h
  by_cases hk : CaseInsensitiveEqual s' k = true
  · rw [hk]
    exact (CaseInsensitiveEqual_iff s k).mpr
      (hm.trans ((CaseInsensitiveEqual_iff s' k).mp hk))
  · have hs : ¬ CaseInsensitiveEqual s k = true := fun hc =>
      hk ((CaseInsensitiveEqual_iff s' k).mpr
        (hm.symm.trans ((CaseInsensitiveEqual_iff s k).mp hc)))
    rw [Bool.not_eq_true] at hk hs
    rw [hk, hs]

/-- C10: http_method is case-insensitive — strings equal up to ASCII letter
case map to the same HTTPMethod (so "get", "Get", "GET" all yield GET) — and
consequently HTTPRequest::read_from accepts a request line whose method
token is written in lower case. -/
theorem http_method_case_insensitive (s s' : List Char)
    (h : CaseInsensitiveEqual s s' = true) :
    http_method s = http_method s'
    ∧ HTTPRequest.read_from "get / HTTP/1.1\r\nHost: x\r\n\r\n".data
        = .ok ⟨"get".data, "/".data, [("Host".data, "x".data)], []⟩ := by
  constructor
  · simp only [http_method, CaseInsensitiveEqual_congr h]
  · rfl

/-- Witness for C10 at s = "get", s' = "GET". -/
theorem http_method_case_insensitive_witness :
    http_method "get".data = http_method "GET".data :=
  (http_method_case_insensitive "get".data "GET".data (by decide)).1

/-- C8: the string_view overload of HTTPRouter::route never returns for a
valid method name — however much call depth (fuel) it is granted, its body
reaches the self-recursive call again, so the registration never happens
(at runtime: unbounded recursion until stack overflow), contradicting the
claim that it terminates and forwards to the HTTPMethod overload. -/
theorem routeStr_never_returns (fuel : Nat) (method uri : List Char) (h : Nat)
    (hv : http_method method ≠ .INVALID) :
    HTTPRouter.routeStr fuel method uri (some h) = none := by
  induction fuel with
  | zero => rfl
  | succ n ih =>
    unfold HTTPRouter.routeStr
    rw [if_neg hv]
    exact ih

/-- Witness for C8: route("GET", "/a", handler) does not return within any
finite depth, here depth 9. -/
theorem routeStr_never_returns_witness :
    HTTPRouter.routeStr 9 "GET".data "/a".data (some 7) = none :=
  routeStr_never_returns 9 "GET".data "/a".data 7 (by decide)

/-- C9: registering with HTTPMethod::INVALID is NOT rejected: route
constructs the runtime_error but never throws it, so the call succeeds and
the handler (id 7) is stored in the trie under INVALID at path /a. -/
theorem route_invalid_method_registers :
    (HTTPRouter.route (Node.mk [] []) HTTPMethod.INVALID "/a".data (some 7)).toOption.map
        (fun n => n.handlerAt ["a".data] HTTPMethod.INVALID) = some (some 7) := rfl

/-- C5 counterexample: result() on a Promise<void> whose variant is still
monostate (the task has not completed) returns normally instead of failing
with the NotReady error. -/
theorem resultVoid_monostate_returns :
    Promise.resultVoid VoidPromiseState.monostate = Except.ok ()
    ∧ Promise.resultVoid VoidPromiseState.monostate ≠ Except.error ResultError.notReady :=
  ⟨rfl, fun hc => Except.noConfusion hc⟩

/-- C5 amended: for non-void T, result() returns a stored value, re-raises a
stored exception, and fails with NotReady when the task has not completed;
for T = void a stored exception is re-raised but an incomplete task's
result() returns normally (void completion stores nothing, so the two states
are indistinguishable). -/
theorem result_behavior {T : Type} (v : T) (e : Nat) :
    Promise.result (PromiseState.value v) = Except.ok v
    ∧ Promise.result (T := T) (PromiseState.exn e) = Except.error (ResultError.rethrown e)
    ∧ Promise.result (T := T) PromiseState.monostate = Except.error ResultError.notReady
    ∧ Promise.resultVoid (VoidPromiseState.exn e) = Except.error (ResultError.rethrown e)
    ∧ Promise.resultVoid VoidPromiseState.monostate = Except.ok () :=
  ⟨rfl, rfl, rfl, rfl, rfl⟩

/-- Witness for C5 at T = Nat, v = 5, e = 3. -/
theorem result_behavior_witness :
    Promise.result (PromiseState.value 5) = Except.ok 5 :=
  (result_behavior 5 3).1

/-- C3: parsing the two-line request "GET /nope HTTP/1.1\r\n\r\n" (a valid
request line immediately followed by the empty line, i.e. zero header
fields) does NOT succeed: the header loop only accepts the empty line as
terminator when at least one header was already stored, so it tries to
parse the empty line as a header field and throws "cannot find ':'" — the
server therefore never reaches its 404 branch for this request. -/
theorem zero_header_request_parse_throws :
    HTTPRequest.read_from "GET /nope HTTP/1.1\r\n\r\n".data
      = .error .noColon := rfl

/-- C1: the serialize-then-parse round trip fails.  With a non-empty body,
write_to emits no blank line between the content-length header and the body,
so read_from consumes the body as a header line and hits EOF; with no
headers and an empty body the serialized bytes are well-formed HTTP, but
read_from rejects them because its header loop cannot stop on the empty
line while the header map is empty. -/
theorem writeTo_readFrom_roundtrip_fails :
    HTTPRequest.write_to ⟨"GET".data, "/".data, [("Host".data, "x".data)], "a".data⟩
      = "GET / HTTP/1.1\r\nHost: x\r\ncontent-length: 1\r\na".data
    ∧ HTTPRequest.read_from "GET / HTTP/1.1\r\nHost: x\r\ncontent-length: 1\r\na".data
      = .error .prematureEof
    ∧ HTTPRequest.write_to ⟨"GET".data, "/".data, [], []⟩
      = "GET / HTTP/1.1\r\n\r\n".data
    ∧ HTTPRequest.read_from "GET / HTTP/1.1\r\n\r\n".data = .error .noColon :=
  ⟨rfl, rfl, rfl, rfl⟩

/-- C2: the buffered getline does not return the bytes before the first
delimiter occurrence.  On stream "\rx\r\nz" with delimiter "\r\n" the first
occurrence starts at index 2, so the specified result is "\rx"; the code
returns "\r" — after the partial match "\r" fails at 'x', the consumed 'x'
is dropped instead of being emitted.  On "a\r\r\nb\r\n" the dropped
mismatch character is the '\r' that begins the real delimiter, so the code
runs past the first occurrence entirely and returns "a\r\nb" instead of
"a\r". -/
theorem getline_drops_mismatch_byte :
    AsyncIStreamBase.getline "\r\n".data "\rx\r\nz".data = some ("\r".data, "z".data)
    ∧ specGetlineBytes "\r\n".data "\rx\r\nz".data = some "\rx".data
    ∧ AsyncIStreamBase.getline "\r\n".data "a\r\r\nb\r\n".data = some ("a\r\nb".data, [])
    ∧ specGetlineBytes "\r\n".data "a\r\r\nb\r\n".data = some "a\r".data :=
  ⟨rfl, rfl, rfl, rfl⟩

/-- handleLt orders primarily by deadline. -/
theorem handleLt_expire_le {a b : TimedEntry} (h : handleLt a b = true) :
    a.expire ≤ b.expire := by
  unfold handleLt at h
  by_cases hne : a.expire ≠ b.expire
  · rw [if_pos hne] at h
    exact Nat.le_of_lt (of_decide_eq_true h)
  · push_neg at hne
    omega

/-- C6: on a timer set listed in its (deadline, address) iteration order
(the std::set invariant), one run() pass resumes exactly the entries whose
deadline is ≤ now — each once, in nondecreasing (deadline, address) order —
and then returns the time remaining to the earliest still-pending deadline,
or none when no timed coroutine remains. -/
theorem TimedScheduler_run_correct (now : Nat) (entries : List TimedEntry)
    (hs : List.Pairwise (fun a b => handleLt a b = true) entries) :
    (TimedScheduler.run now entries).1 = entries.filter (fun e => e.expire ≤ now)
    ∧ List.Pairwise (fun a b => handleLt a b = true) (TimedScheduler.run now entries).1
    ∧ ((TimedScheduler.run now entries).2 = none
        ↔ entries.filter (fun e => now < e.expire) = [])
    ∧ ∀ d, (TimedScheduler.run now entries).2 = some d →
        ∃ e ∈ entries, now < e.expire ∧ d = e.expire - now
          ∧ ∀ e' ∈ entries, now < e'.expire → e.expire ≤ e'.expire := by
  induction entries with
  | nil =>
    refine ⟨rfl, List.Pairwise.nil, by simp [TimedScheduler.run], ?_⟩
    intro d hd
    simp [TimedScheduler.run] at hd
  | cons e rest ih =>
    have hpair := List.pairwise_cons.mp hs
    have ihr := ih hpair.2
    by_cases he : e.expire ≤ now
    · have hrun : TimedScheduler.run now (e :: rest)
          = (e :: (TimedScheduler.run now rest).1, (TimedScheduler.run now rest).2) := by
        rw [TimedScheduler.run, if_pos he]
      refine ⟨?_, ?_, ?_, ?_⟩
      · rw [hrun]
        have hfc : List.filter (fun x => decide (x.expire ≤ now)) (e :: rest)
            = e :: List.filter (fun x => decide (x.expire ≤ now)) rest :=
          List.filter_cons_of_pos (by simpa using he)
        rw [hfc]
        show e :: (TimedScheduler.run now rest).1 = _
        rw [ihr.1]
      · rw [hrun]
        refine List.pairwise_cons.mpr ⟨?_, ihr.2.1⟩
        intro x hx
        rw [ihr.1] at hx
        exact hpair.1 x (List.mem_of_mem_filter hx)
      · rw [hrun]
        have hfc : List.filter (fun x => decide (now < x.expire)) (e :: rest)
            = List.filter (fun x => decide (now < x.expire)) rest :=
          List.filter_cons_of_neg (by simp only [decide_eq_true_eq]; omega)
        rw [hfc]
        exact ihr.2.2.1
      · intro d hd
        rw [hrun] at hd
        obtain ⟨e', he', h1, h2, h3⟩ := ihr.2.2.2 d hd
        refine ⟨e', List.mem_cons_of_mem e he', h1, h2, ?_⟩
        intro x hx hxp
        rcases List.mem_cons.mp hx with hx | hx
        · subst hx
          omega
        · exact h3 x hx hxp
    · have hnow : now < e.expire := by omega
      have hrun : TimedScheduler.run now (e :: rest)
          = ([], some (e.expire - now)) := by
        rw [TimedScheduler.run, if_neg he]
      have hrestge : ∀ x ∈ rest, e.expire ≤ x.expire :=
        fun x hx => handleLt_expire_le (hpair.1 x hx)
      refine ⟨?_, ?_, ?_, ?_⟩
      · rw [hrun]
        symm
        rw [List.filter_eq_nil_iff]
        intro x hx
        rcases List.mem_cons.mp hx with hx | hx
        · subst hx
          simp only [decide_eq_true_eq]
          omega
        · have := hrestge x hx
          simp only [decide_eq_true_eq]
          omega
      · rw [hrun]
        exact List.Pairwise.nil
      · rw [hrun]
        constructor
        · intro hc
          exact absurd hc (by simp)
        · intro hc
          have : e ∈ List.filter (fun e => now < e.expire) (e :: rest) := by
            simp only [List.mem_filter, decide_eq_true_eq]
            exact ⟨List.mem_cons_self e rest, hnow⟩
          rw [hc] at this
          exact absurd this (List.not_mem_nil e)
      · intro d hd
        rw [hrun] at hd
        simp only [Option.some.injEq] at hd
        refine ⟨e, List.mem_cons_self e rest, hnow, hd.symm, ?_⟩
        intro x hx _
        rcases List.mem_cons.mp hx with hx | hx
        · subst hx
          exact Nat.le_refl _
        · exact hrestge x hx

/-- Witness for C6: on the sorted set with deadlines 1, 3, 7 at now = 3 the
pass fires the first two entries in order. -/
theorem TimedScheduler_run_correct_witness :
    (TimedScheduler.run 3 [⟨1, 5⟩, ⟨3, 1⟩, ⟨7, 2⟩]).1
      = List.filter (fun e => e.expire ≤ 3) [⟨1, 5⟩, ⟨3, 1⟩, ⟨7, 2⟩] :=
  (TimedScheduler_run_correct 3 [⟨1, 5⟩, ⟨3, 1⟩, ⟨7, 2⟩] (by decide)).1

namespace WhenAll

/-- startsOf distributes over trace concatenation. -/
theorem startsOf_append (a b : List Event) :
    startsOf (a ++ b) = startsOf a ++ startsOf b :=
  List.filterMap_append a b _

/-- completesOf distributes over trace concatenation. -/
theorem completesOf_append (a b : List Event) :
    completesOf (a ++ b) = completesOf a ++ completesOf b :=
  List.filterMap_append a b _

/-- okCount adds over trace concatenation. -/
theorem okCount_append (bs : List ChildBehavior) (a b : List Event) :
    okCount bs (a ++ b) = okCount bs a + okCount bs b := by
  unfold okCount
  rw [completesOf_append, List.filter_append, List.length_append]

/-- firstExnOf over concatenation: the earlier trace wins. -/
theorem firstExnOf_append (bs : List ChildBehavior) (a b : List Event) :
    firstExnOf bs (a ++ b) = (firstExnOf bs a).or (firstExnOf bs b) := by
  unfold firstExnOf
  rw [completesOf_append, List.findSome?_append]

/-- The completions of [childComplete i, parentResume]. -/
theorem completesOf_ccpr (i : Nat) :
    completesOf [Event.childComplete i, Event.parentResume] = [i] := rfl

/-- The completions of [childComplete i]. -/
theorem completesOf_cc (i : Nat) :
    completesOf [Event.childComplete i] = [i] := rfl

/-- No starts in [childComplete i, parentResume]. -/
theorem startsOf_ccpr (i : Nat) :
    startsOf [Event.childComplete i, Event.parentResume] = [] := rfl

/-- No starts in [childComplete i]. -/
theorem startsOf_cc (i : Nat) :
    startsOf [Event.childComplete i] = [] := rfl

/-- The starts of [childStart i]. -/
theorem startsOf_cs (i : Nat) :
    startsOf [Event.childStart i] = [i] := rfl

/-- No completions in [childStart i]. -/
theorem completesOf_cs (i : Nat) :
    completesOf [Event.childStart i] = [] := rfl

/-- okCount of a single completion of child i. -/
theorem okCount_single (bs : List ChildBehavior) (i : Nat) (l : List Event)
    (hc : completesOf l = [i]) :
    okCount bs l = if outcomeAt bs i = ChildOutcome.ok then 1 else 0 := by
  unfold okCount
  rw [hc]
  by_cases h : outcomeAt bs i = ChildOutcome.ok
  · simp [h]
  · simp [h]

/-- firstExnOf of a single completion of child i. -/
theorem firstExnOf_single (bs : List ChildBehavior) (i : Nat) (l : List Event)
    (hc : completesOf l = [i]) :
    firstExnOf bs l = exnAt bs i := by
  unfold firstExnOf
  rw [hc]
  cases h : exnAt bs i <;> simp [List.findSome?, h]

/-- okCount of a pure-ok completion list is the number of completions. -/
theorem exnAt_ok {bs : List ChildBehavior} {i : Nat}
    (h : outcomeAt bs i = ChildOutcome.ok) : exnAt bs i = none := by
  unfold exnAt
  rw [h]

/-- A throwing child has exnAt = some. -/
theorem exnAt_exn {bs : List ChildBehavior} {i : Nat} {e : Nat}
    (h : outcomeAt bs i = ChildOutcome.exn e) : exnAt bs i = some e := by
  unfold exnAt
  rw [h]

/-- The parentResume count of the two-event suffix. -/
theorem count_pr_ccpr (i : Nat) :
    List.count Event.parentResume [Event.childComplete i, Event.parentResume] = 1 := by
  simp [List.count_cons]

/-- The parentResume count of [childComplete i]. -/
theorem count_pr_cc (i : Nat) :
    List.count Event.parentResume [Event.childComplete i] = 0 := by
  simp [List.count_cons]

/-- The parentResume count of [childStart i]. -/
theorem count_pr_cs (i : Nat) :
    List.count Event.parentResume [Event.childStart i] = 0 := by
  simp [List.count_cons]

/-- What childFinish does for a throwing child: store the exception, record
the completion, resume the parent. -/
theorem childFinish_exn (s : RunState) (i e : Nat) :
    childFinish s i (ChildOutcome.exn e) =
      ⟨⟨s.group.count, some e⟩,
       s.trace ++ [Event.childComplete i, Event.parentResume],
       s.pending,
       s.parentResumes + 1,
       if s.parentResumes = 0 then some (some e) else s.delivered⟩ := by
  simp [childFinish, whenAllTaskFinish, resumeParent]

/-- What childFinish does for a cleanly completing child: decrement the
count, record the completion, and resume the parent exactly when the count
reached zero. -/
theorem childFinish_ok (s : RunState) (i : Nat) :
    childFinish s i ChildOutcome.ok =
      if s.group.count - 1 = 0 then
        ⟨⟨s.group.count - 1, s.group.exn⟩,
         s.trace ++ [Event.childComplete i, Event.parentResume],
         s.pending,
         s.parentResumes + 1,
         if s.parentResumes = 0 then some s.group.exn else s.delivered⟩
      else
        ⟨⟨s.group.count - 1, s.group.exn⟩,
         s.trace ++ [Event.childComplete i],
         s.pending,
         s.parentResumes,
         s.delivered⟩ := by
  by_cases h : s.group.count - 1 = 0
  · simp [childFinish, whenAllTaskFinish, resumeParent, h]
  · simp [childFinish, whenAllTaskFinish, resumeParent, h]

/-- Invariant preservation across one child-body completion: whenever
childFinish runs (a child that just started completes immediately, or a
pending child's external event fires), the driver invariant holds afterward.
The hypotheses are the invariant pieces for the intermediate state t (whose
start/pending bookkeeping already accounts for the completing child, hence
the +1 in the length equation). -/
theorem childFinish_inv (bs : List ChildBehavior) (t : RunState) (i : Nat)
    (hi : i < bs.length)
    (hcount : t.group.count + okCount bs t.trace = bs.length)
    (hlen : t.pending.length + (completesOf t.trace).length + 1 = (startsOf t.trace).length)
    (hstarts : (startsOf t.trace).length ≤ bs.length)
    (hpend : ∀ j ∈ t.pending, j < bs.length)
    (hcompl : ∀ j ∈ completesOf t.trace, j < bs.length)
    (hpr : List.count Event.parentResume t.trace = t.parentResumes)
    (hnoexn : firstExnOf bs t.trace = none → t.group.exn = none)
    (hdeliv : DelivClause bs t) :
    Inv bs (childFinish t i (outcomeAt bs i)) := by
  have hok_le : okCount bs t.trace ≤ (completesOf t.trace).length :=
    List.length_filter_le _ _
  have hcge : 1 ≤ t.group.count := by omega
  cases houtcome : outcomeAt bs i with
  | ok =>
    rw [childFinish_ok]
    by_cases hres : t.group.count - 1 = 0
    · rw [if_pos hres]
      refine ⟨?_, ?_, ?_, ?_, ?_, ?_, ?_, ?_, ?_⟩
      · show t.group.count - 1 + okCount bs (t.trace ++ _) = bs.length
        rw [okCount_append, okCount_single bs i _ (completesOf_ccpr i), if_pos houtcome]
        omega
      · show t.pending.length + (completesOf (t.trace ++ _)).length
            = (startsOf (t.trace ++ _)).length
        rw [completesOf_append, completesOf_ccpr, startsOf_append, startsOf_ccpr,
          List.length_append, List.length_append]
        simp only [List.length_cons, List.length_nil]
        omega
      · show (startsOf (t.trace ++ _)).length ≤ bs.length
        rw [startsOf_append, startsOf_ccpr, List.append_nil]
        exact hstarts
      · exact hpend
      · show ∀ j ∈ completesOf (t.trace ++ _), j < bs.length
        rw [completesOf_append, completesOf_ccpr]
        intro j hj
        rcases List.mem_append.mp hj with hj | hj
        · exact hcompl j hj
        · rw [List.mem_singleton.mp hj]
          exact hi
      · show List.count Event.parentResume (t.trace ++ _) = t.parentResumes + 1
        rw [List.count_append, hpr, count_pr_ccpr]
      · show firstExnOf bs (t.trace ++ _) = none → t.group.exn = none
        rw [firstExnOf_append, firstExnOf_single bs i _ (completesOf_ccpr i),
          exnAt_ok houtcome, Option.or_none]
        exact hnoexn
      · intro _
        show (t.trace ++ [Event.childComplete i, Event.parentResume]).getLast?
            = some Event.parentResume
        simp
      · show DelivClause bs _
        unfold DelivClause at hdeliv ⊢
        have hfe' : firstExnOf bs (t.trace ++ [Event.childComplete i, Event.parentResume])
            = firstExnOf bs t.trace := by
          rw [firstExnOf_append, firstExnOf_single bs i _ (completesOf_ccpr i),
            exnAt_ok houtcome, Option.or_none]
        rcases hdeliv with ⟨hfe, hcase⟩ | ⟨e0, hfe, hdel, hge⟩
        · rcases hcase with ⟨hd, hr0, _⟩ | ⟨_, hc0, _⟩
          · refine Or.inl ⟨by rw [hfe'] ; exact hfe, Or.inr ⟨?_, hres,
              by show t.parentResumes + 1 = 1 ; omega⟩⟩
            show (if t.parentResumes = 0 then some t.group.exn else t.delivered)
                = some none
            rw [if_pos hr0, hnoexn hfe]
          · omega
        · refine Or.inr ⟨e0, by rw [hfe'] ; exact hfe, ?_,
            by show 1 ≤ t.parentResumes + 1 ; omega⟩
          show (if t.parentResumes = 0 then some t.group.exn else t.delivered)
              = some (some e0)
          rw [if_neg (by omega)]
          exact hdel
    · rw [if_neg hres]
      refine ⟨?_, ?_, ?_, ?_, ?_, ?_, ?_, ?_, ?_⟩
      · show t.group.count - 1 + okCount bs (t.trace ++ _) = bs.length
        rw [okCount_append, okCount_single bs i _ (completesOf_cc i), if_pos houtcome]
        omega
      · show t.pending.length + (completesOf (t.trace ++ _)).length
            = (startsOf (t.trace ++ _)).length
        rw [completesOf_append, completesOf_cc, startsOf_append, startsOf_cc,
          List.length_append, List.length_append]
        simp only [List.length_cons, List.length_nil]
        omega
      · show (startsOf (t.trace ++ _)).length ≤ bs.length
        rw [startsOf_append, startsOf_cc, List.append_nil]
        exact hstarts
      · exact hpend
      · show ∀ j ∈ completesOf (t.trace ++ _), j < bs.length
        rw [completesOf_append, completesOf_cc]
        intro j hj
        rcases List.mem_append.mp hj with hj | hj
        · exact hcompl j hj
        · rw [List.mem_singleton.mp hj]
          exact hi
      · show List.count Event.parentResume (t.trace ++ _) = t.parentResumes
        rw [List.count_append, hpr, count_pr_cc]
        omega
      · show firstExnOf bs (t.trace ++ _) = none → t.group.exn = none
        rw [firstExnOf_append, firstExnOf_single bs i _ (completesOf_cc i),
          exnAt_ok houtcome, Option.or_none]
        exact hnoexn
      · intro hc
        exact absurd hc hres
      · show DelivClause bs _
        unfold DelivClause at hdeliv ⊢
        have hfe' : firstExnOf bs (t.trace ++ [Event.childComplete i])
            = firstExnOf bs t.trace := by
          rw [firstExnOf_append, firstExnOf_single bs i _ (completesOf_cc i),
            exnAt_ok houtcome, Option.or_none]
        rcases hdeliv with ⟨hfe, hcase⟩ | ⟨e0, hfe, hdel, hge⟩
        · rcases hcase with ⟨hd, hr0, _⟩ | ⟨_, hc0, _⟩
          · exact Or.inl ⟨by rw [hfe'] ; exact hfe,
              Or.inl ⟨hd, hr0, Or.inl hres⟩⟩
          · omega
        · exact Or.inr ⟨e0, by rw [hfe'] ; exact hfe, hdel, hge⟩
  | exn e =>
    rw [childFinish_exn]
    refine ⟨?_, ?_, ?_, ?_, ?_, ?_, ?_, ?_, ?_⟩
    · show t.group.count + okCount bs (t.trace ++ _) = bs.length
      rw [okCount_append, okCount_single bs i _ (completesOf_ccpr i),
        if_neg (by rw [houtcome] ; exact fun hc => ChildOutcome.noConfusion hc)]
      omega
    · show t.pending.length + (completesOf (t.trace ++ _)).length
          = (startsOf (t.trace ++ _)).length
      rw [completesOf_append, completesOf_ccpr, startsOf_append, startsOf_ccpr,
        List.length_append, List.length_append]
      simp only [List.length_cons, List.length_nil]
      omega
    · show (startsOf (t.trace ++ _)).length ≤ bs.length
      rw [startsOf_append, startsOf_ccpr, List.append_nil]
      exact hstarts
    · exact hpend
    · show ∀ j ∈ completesOf (t.trace ++ _), j < bs.length
      rw [completesOf_append, completesOf_ccpr]
      intro j hj
      rcases List.mem_append.mp hj with hj | hj
      · exact hcompl j hj
      · rw [List.mem_singleton.mp hj]
        exact hi
    · show List.count Event.parentResume (t.trace ++ _) = t.parentResumes + 1
      rw [List.count_append, hpr, count_pr_ccpr]
    · intro hc
      rw [firstExnOf_append, firstExnOf_single bs i _ (completesOf_ccpr i),
        exnAt_exn houtcome] at hc
      cases hfe : firstExnOf bs t.trace <;> rw [hfe] at hc
      · rw [Option.none_or] at hc
        exact Option.noConfusion hc
      · exact Option.noConfusion hc
    · intro _
      show (t.trace ++ [Event.childComplete i, Event.parentResume]).getLast?
          = some Event.parentResume
      simp
    · show DelivClause bs _
      unfold DelivClause at hdeliv ⊢
      have hfe' : firstExnOf bs (t.trace ++ [Event.childComplete i, Event.parentResume])
          = (firstExnOf bs t.trace).or (some e) := by
        rw [firstExnOf_append, firstExnOf_single bs i _ (completesOf_ccpr i),
          exnAt_exn houtcome]
      rcases hdeliv with ⟨hfe, hcase⟩ | ⟨e0, hfe, hdel, hge⟩
      · rcases hcase with ⟨hd, hr0, _⟩ | ⟨_, hc0, _⟩
        · refine Or.inr ⟨e, ?_, ?_, by show 1 ≤ t.parentResumes + 1 ; omega⟩
          · rw [hfe', hfe, Option.none_or]
          · show (if t.parentResumes = 0 then some (some e) else t.delivered)
                = some (some e)
            rw [if_pos hr0]
        · omega
      · refine Or.inr ⟨e0, ?_, ?_, by show 1 ≤ t.parentResumes + 1 ; omega⟩
        · rw [hfe', hfe]
          rfl
        · show (if t.parentResumes = 0 then some (some e) else t.delivered)
              = some (some e0)
          rw [if_neg (by omega)]
          exact hdel

/-- childFinish starts no child. -/
theorem childFinish_startsOf (t : RunState) (i : Nat) (o : ChildOutcome) :
    startsOf (childFinish t i o).trace = startsOf t.trace := by
  cases o with
  | ok =>
    rw [childFinish_ok]
    by_cases h : t.group.count - 1 = 0
    · rw [if_pos h]
      show startsOf (t.trace ++ _) = _
      rw [startsOf_append, startsOf_ccpr, List.append_nil]
    · rw [if_neg h]
      show startsOf (t.trace ++ _) = _
      rw [startsOf_append, startsOf_cc, List.append_nil]
  | exn e =>
    rw [childFinish_exn]
    show startsOf (t.trace ++ _) = _
    rw [startsOf_append, startsOf_ccpr, List.append_nil]

/-- okCount ignores a start event. -/
theorem okCount_cs (bs : List ChildBehavior) (i : Nat) :
    okCount bs [Event.childStart i] = 0 := rfl

/-- firstExnOf ignores a start event. -/
theorem firstExnOf_cs (bs : List ChildBehavior) (i : Nat) :
    firstExnOf bs [Event.childStart i] = none := rfl

/-- Invariant preservation across the first resumption of child i (one
iteration of await_suspend's loop): the invariant holds afterward and
exactly the start of child i is appended to the start order. -/
theorem childFirstResume_inv (bs : List ChildBehavior) (s : RunState) (i : Nat)
    (hInv : Inv bs s)
    (hlt : (startsOf s.trace).length < bs.length)
    (hi : i < bs.length) :
    Inv bs (childFirstResume bs s i)
    ∧ startsOf (childFirstResume bs s i).trace = startsOf s.trace ++ [i] := by
  have hok_le : okCount bs s.trace ≤ (completesOf s.trace).length :=
    List.length_filter_le _ _
  have hcompl_le : (completesOf s.trace).length ≤ (startsOf s.trace).length := by
    have := hInv.lenEq
    omega
  have hcge : 1 ≤ s.group.count := by
    have := hInv.countEq
    omega
  have hfe1 : firstExnOf bs (s.trace ++ [Event.childStart i]) = firstExnOf bs s.trace := by
    rw [firstExnOf_append, firstExnOf_cs, Option.or_none]
  have hstarts1 : startsOf (s.trace ++ [Event.childStart i])
      = startsOf s.trace ++ [i] := by
    rw [startsOf_append, startsOf_cs]
  unfold childFirstResume
  cases hb : bs.getD i (ChildBehavior.immediate ChildOutcome.ok) with
  | immediate o =>
    have ho : o = outcomeAt bs i := by
      unfold outcomeAt
      rw [hb]
      rfl
    rw [ho]
    constructor
    · apply childFinish_inv bs _ i hi
      · show s.group.count + okCount bs (s.trace ++ _) = bs.length
        rw [okCount_append, okCount_cs]
        have := hInv.countEq
        omega
      · show s.pending.length + (completesOf (s.trace ++ _)).length + 1
            = (startsOf (s.trace ++ _)).length
        rw [completesOf_append, completesOf_cs, List.append_nil, hstarts1,
          List.length_append]
        have := hInv.lenEq
        simp only [List.length_cons, List.length_nil]
        omega
      · show (startsOf (s.trace ++ _)).length ≤ bs.length
        rw [hstarts1, List.length_append]
        simp only [List.length_cons, List.length_nil]
        omega
      · exact hInv.pendingLt
      · show ∀ j ∈ completesOf (s.trace ++ _), j < bs.length
        rw [completesOf_append, completesOf_cs, List.append_nil]
        exact hInv.completesLt
      · show List.count Event.parentResume (s.trace ++ _) = s.parentResumes
        rw [List.count_append, count_pr_cs, hInv.prCount]
        omega
      · show firstExnOf bs (s.trace ++ _) = none → s.group.exn = none
        rw [hfe1]
        exact hInv.noExnNone
      · show DelivClause bs _
        unfold DelivClause
        have := hInv.deliv
        unfold DelivClause at this
        rw [hfe1]
        exact this
    · rw [childFinish_startsOf]
      exact hstarts1
  | suspends o =>
    refine ⟨⟨?_, ?_, ?_, ?_, ?_, ?_, ?_, ?_, ?_⟩, ?_⟩
    · show s.group.count + okCount bs (s.trace ++ _) = bs.length
      rw [okCount_append, okCount_cs]
      have := hInv.countEq
      omega
    · show (s.pending ++ [i]).length + (completesOf (s.trace ++ _)).length
          = (startsOf (s.trace ++ _)).length
      rw [completesOf_append, completesOf_cs, List.append_nil, hstarts1,
        List.length_append, List.length_append]
      have := hInv.lenEq
      simp only [List.length_cons, List.length_nil]
      omega
    · show (startsOf (s.trace ++ _)).length ≤ bs.length
      rw [hstarts1, List.length_append]
      simp only [List.length_cons, List.length_nil]
      omega
    · show ∀ j ∈ s.pending ++ [i], j < bs.length
      intro j hj
      rcases List.mem_append.mp hj with hj | hj
      · exact hInv.pendingLt j hj
      · rw [List.mem_singleton.mp hj]
        exact hi
    · show ∀ j ∈ completesOf (s.trace ++ _), j < bs.length
      rw [completesOf_append, completesOf_cs, List.append_nil]
      exact hInv.completesLt
    · show List.count Event.parentResume (s.trace ++ _) = s.parentResumes
      rw [List.count_append, count_pr_cs, hInv.prCount]
      omega
    · show firstExnOf bs (s.trace ++ _) = none → s.group.exn = none
      rw [hfe1]
      exact hInv.noExnNone
    · show s.group.count = 0 → _
      intro hc
      exact absurd hc (by show ¬ s.group.count = 0 ; omega)
    · show DelivClause bs _
      unfold DelivClause
      have hd := hInv.deliv
      unfold DelivClause at hd
      rw [hfe1]
      rcases hd with ⟨hfe, hcase⟩ | hr
      · rcases hcase with ⟨h1, h2, _⟩ | ⟨_, hc0, _⟩
        · exact Or.inl ⟨hfe, Or.inl ⟨h1, h2,
            Or.inl (show ¬ s.group.count = 0 by omega)⟩⟩
        · omega
      · exact Or.inr hr
    · exact hstarts1

/-- Invariant preservation across one external event (phase 2 step). -/
theorem externalFire_inv (bs : List ChildBehavior) (s : RunState) (i : Nat)
    (hInv : Inv bs s) :
    Inv bs (externalFire bs s i)
    ∧ startsOf (externalFire bs s i).trace = startsOf s.trace := by
  unfold externalFire
  by_cases hmem : i ∈ s.pending
  · rw [if_pos hmem]
    have hi : i < bs.length := hInv.pendingLt i hmem
    have hple : 0 < s.pending.length := List.length_pos.mpr (by
      intro hnil
      rw [hnil] at hmem
      exact List.not_mem_nil i hmem)
    have herase : (s.pending.erase i).length = s.pending.length - 1 :=
      List.length_erase_of_mem hmem
    constructor
    · apply childFinish_inv bs _ i hi
      · exact hInv.countEq
      · show (s.pending.erase i).length + (completesOf s.trace).length + 1
            = (startsOf s.trace).length
        have := hInv.lenEq
        omega
      · exact hInv.startsLe
      · intro j hj
        exact hInv.pendingLt j (List.mem_of_mem_erase hj)
      · exact hInv.completesLt
      · exact hInv.prCount
      · exact hInv.noExnNone
      · exact hInv.deliv
    · exact childFinish_startsOf _ _ _
  · rw [if_neg hmem]
    exact ⟨hInv, rfl⟩

/-- Invariant and start order across the whole await_suspend loop. -/
theorem phase1_fold_inv (bs : List ChildBehavior) (l : List Nat) (s : RunState)
    (hInv : Inv bs s)
    (hlen : (startsOf s.trace).length + l.length ≤ bs.length)
    (hlt : ∀ i ∈ l, i < bs.length) :
    Inv bs (l.foldl (childFirstResume bs) s)
    ∧ startsOf (l.foldl (childFirstResume bs) s).trace = startsOf s.trace ++ l := by
  induction l generalizing s with
  | nil =>
    rw [List.foldl_nil, List.append_nil]
    exact ⟨hInv, rfl⟩
  | cons i l ih =>
    have hlt0 : (startsOf s.trace).length < bs.length := by
      simp only [List.length_cons] at hlen
      omega
    have hstep := childFirstResume_inv bs s i hInv hlt0 (hlt i (List.mem_cons_self i l))
    have ih' := ih (childFirstResume bs s i) hstep.1
      (by
        rw [hstep.2, List.length_append]
        simp only [List.length_cons, List.length_nil] at hlen ⊢
        omega)
      (fun j hj => hlt j (List.mem_cons_of_mem _ hj))
    rw [List.foldl_cons]
    refine ⟨ih'.1, ?_⟩
    rw [ih'.2, hstep.2, List.append_assoc, List.singleton_append]

/-- Invariant and start order across the external phase. -/
theorem phase2_fold_inv (bs : List ChildBehavior) (l : List Nat) (s : RunState)
    (hInv : Inv bs s) :
    Inv bs (l.foldl (externalFire bs) s)
    ∧ startsOf (l.foldl (externalFire bs) s).trace = startsOf s.trace := by
  induction l generalizing s with
  | nil => exact ⟨hInv, rfl⟩
  | cons i l ih =>
    have hstep := externalFire_inv bs s i hInv
    have ih' := ih (externalFire bs s i) hstep.1
    rw [List.foldl_cons]
    exact ⟨ih'.1, by rw [ih'.2, hstep.2]⟩

/-- The invariant holds initially (for a non-empty child list). -/
theorem initState_inv (bs : List ChildBehavior) (hne : bs ≠ []) :
    Inv bs (initState bs.length) := by
  have hn : 0 < bs.length := List.length_pos.mpr hne
  refine ⟨by simp [initState, okCount, completesOf], rfl, ?_, ?_, ?_, rfl, ?_, ?_, ?_⟩
  · exact Nat.zero_le _
  · intro i hi
    exact absurd hi (List.not_mem_nil i)
  · intro i hi
    exact absurd hi (List.not_mem_nil i)
  · intro _
    rfl
  · intro hc
    exact absurd hc (by show ¬ bs.length = 0 ; omega)
  · exact Or.inl ⟨rfl, Or.inl ⟨rfl, rfl, Or.inl (by show ¬ bs.length = 0 ; omega)⟩⟩

/-- The invariant holds at the end of any when_all run, and the children are
first resumed exactly in await_suspend order: 1, ..., n-1, 0. -/
theorem run_inv (bs : List ChildBehavior) (ext : List Nat) (hne : bs ≠ []) :
    Inv bs (run bs ext)
    ∧ startsOf (run bs ext).trace = awaitSuspendOrder bs.length := by
  have hn : 0 < bs.length := List.length_pos.mpr hne
  have horderlen : (awaitSuspendOrder bs.length).length = bs.length := by
    unfold awaitSuspendOrder
    rw [List.length_append, List.length_drop, List.length_range]
    simp only [List.length_cons, List.length_nil]
    omega
  have h1 := phase1_fold_inv bs (awaitSuspendOrder bs.length) (initState bs.length)
    (initState_inv bs hne)
    (by
      rw [horderlen]
      show (startsOf []).length + bs.length ≤ bs.length
      show 0 + bs.length ≤ bs.length
      omega)
    (by
      intro i hi
      unfold awaitSuspendOrder at hi
      rcases List.mem_append.mp hi with hi | hi
      · exact List.mem_range.mp (List.mem_of_mem_drop hi)
      · rw [List.mem_singleton.mp hi]
        exact hn)
  have h2 := phase2_fold_inv bs ext _ h1.1
  unfold run startPhase
  refine ⟨h2.1, ?_⟩
  rw [h2.2, h1.2]
  rfl

/-- C7 counterexample: in when_all(a, b) where both children suspend, the
trace starts with childStart 1 — the SECOND argument — not childStart 0:
the first child does not run before the other children, because
await_suspend resumes tasks_[1..] before transferring to tasks_[0]. -/
theorem whenAll_first_child_not_started_first :
    (run [ChildBehavior.suspends ChildOutcome.ok,
          ChildBehavior.suspends ChildOutcome.ok] [0, 1]).trace.head?
      = some (Event.childStart 1)
    ∧ (run [ChildBehavior.suspends ChildOutcome.ok,
            ChildBehavior.suspends ChildOutcome.ok] [0, 1]).trace.head?
      ≠ some (Event.childStart 0) :=
  ⟨rfl, by decide⟩

/-- C7 amended: the children of when_all start in the order
2nd, 3rd, ..., nth, 1st — await_suspend resumes the trailing children in
argument order first and only then starts the first child by symmetric
transfer — and, when no child throws and every suspended child's event
fires, the parent is resumed exactly once, after the last child completes
(it is the final event of the run). -/
theorem whenAll_start_order_parent_last (bs : List ChildBehavior) (ext : List Nat)
    (hne : bs ≠ [])
    (hok : ∀ b ∈ bs, ChildBehavior.outcome b = ChildOutcome.ok)
    (hall : (run bs ext).pending = []) :
    startsOf (run bs ext).trace = (List.range bs.length).drop 1 ++ [0]
    ∧ (run bs ext).trace.getLast? = some Event.parentResume
    ∧ List.count Event.parentResume (run bs ext).trace = 1 := by
  obtain ⟨hInv, hstarts⟩ := run_inv bs ext hne
  have hn : 0 < bs.length := List.length_pos.mpr hne
  have hstartslen : (startsOf (run bs ext).trace).length = bs.length := by
    rw [hstarts]
    unfold awaitSuspendOrder
    rw [List.length_append, List.length_drop, List.length_range]
    simp only [List.length_cons, List.length_nil]
    omega
  have hcompllen : (completesOf (run bs ext).trace).length = bs.length := by
    have := hInv.lenEq
    rw [hall, hstartslen] at this
    simpa using this
  have hallok : ∀ i ∈ completesOf (run bs ext).trace,
      outcomeAt bs i = ChildOutcome.ok := by
    intro i hi
    have hilt : i < bs.length := hInv.completesLt i hi
    unfold outcomeAt
    rw [List.getD_eq_getElem bs _ hilt]
    exact hok _ (List.getElem_mem hilt)
  have hokc : okCount bs (run bs ext).trace
      = (completesOf (run bs ext).trace).length := by
    unfold okCount
    rw [List.filter_eq_self.mpr]
    intro i hi
    simp only [decide_eq_true_eq]
    exact hallok i hi
  have hcount0 : (run bs ext).group.count = 0 := by
    have := hInv.countEq
    omega
  have hfe : firstExnOf bs (run bs ext).trace = none := by
    unfold firstExnOf
    rw [List.findSome?_eq_none_iff]
    intro i hi
    exact exnAt_ok (hallok i hi)
  refine ⟨hstarts, hInv.lastPr hcount0, ?_⟩
  rcases hInv.deliv with ⟨_, hcase⟩ | ⟨e0, hfe0, _, _⟩
  · rcases hcase with ⟨_, _, hcnz⟩ | ⟨_, _, hr1⟩
    · rcases hcnz with h | h
      · exact absurd hcount0 h
      · omega
    · rw [hInv.prCount, hr1]
  · rw [hfe] at hfe0
    exact Option.noConfusion hfe0

/-- Witness for C7 at bs = [immediate ok, suspends ok], ext = [1]. -/
theorem whenAll_start_order_parent_last_witness :
    startsOf (run [ChildBehavior.immediate ChildOutcome.ok,
                   ChildBehavior.suspends ChildOutcome.ok] [1]).trace
      = (List.range 2).drop 1 ++ [0] :=
  (whenAll_start_order_parent_last
    [ChildBehavior.immediate ChildOutcome.ok, ChildBehavior.suspends ChildOutcome.ok]
    [1] (by decide) (by decide) (by decide)).1

/-- C4 counterexample: in when_all(a, b) where a suspends and b throws
(exception id 7) immediately, the parent is resumed — and the combined task
fails with b's exception — at trace position 2, while input a completes only
at position 4: the other input is NOT awaited to completion before the
combined task completes. -/
theorem whenAll_parent_resumed_before_all_done :
    (run [ChildBehavior.suspends ChildOutcome.ok,
          ChildBehavior.immediate (ChildOutcome.exn 7)] [0]).trace
      = [Event.childStart 1, Event.childComplete 1, Event.parentResume,
         Event.childStart 0, Event.childComplete 0]
    ∧ (run [ChildBehavior.suspends ChildOutcome.ok,
            ChildBehavior.immediate (ChildOutcome.exn 7)] [0]).delivered
      = some (some 7) :=
  ⟨rfl, rfl⟩

/-- C4 amended: if any input of when_all throws, the combined task fails
with the first exception that was thrown; the throwing child resumes the
parent at once (the parent has been resumed by the end of the run), without
first awaiting the remaining inputs — which still run afterwards. -/
theorem whenAll_fails_with_first_exception (bs : List ChildBehavior)
    (ext : List Nat) (e : Nat)
    (hne : bs ≠ [])
    (hexn : firstExnOf bs (run bs ext).trace = some e) :
    (run bs ext).delivered = some (some e)
    ∧ 1 ≤ (run bs ext).parentResumes := by
  obtain ⟨hInv, _⟩ := run_inv bs ext hne
  rcases hInv.deliv with ⟨hfe, _⟩ | ⟨e0, hfe0, hdel, hge⟩
  · rw [hexn] at hfe
    exact Option.noConfusion hfe
  · rw [hfe0] at hexn
    rw [Option.some.injEq] at hexn
    rw [← hexn]
    exact ⟨hdel, hge⟩

/-- Witness for C4 at bs = [suspends ok, immediate (exn 7)], ext = [0]. -/
theorem whenAll_fails_with_first_exception_witness :
    (run [ChildBehavior.suspends ChildOutcome.ok,
          ChildBehavior.immediate (ChildOutcome.exn 7)] [0]).delivered
      = some (some 7) :=
  (whenAll_fails_with_first_exception
    [ChildBehavior.suspends ChildOutcome.ok,
     ChildBehavior.immediate (ChildOutcome.exn 7)]
    [0] 7 (by decide) (by decide)).1

end WhenAll

end Coro
